import Mathlib

/-!
Shallow embedding of `simcrunner/simc.py` (SimCMinMax/simcrunner).

The module under verification builds command-line argument vectors for the
external `simc` executable out of a small tree of argument nodes
(`SimcArg` and its subclasses), and wraps subprocess execution with an
append-only history and a recovery-file export on launch failure.

Environment-dependent values are passed explicitly: the current working
directory `cwd` (used by `os.path.abspath` inside `File.file_name`), the
platform flag (Windows executable suffix), and the clock reading used in the
export header.  Path manipulation (`posixpath.normpath`, `join`, `abspath`)
is modelled at the character-list level, faithfully to CPython's posixpath.
-/

namespace Simcrunner

/-- Values accepted as simc argument values, `Arg = TypeVar('Arg', str, int, float)`
in the source.  A float value is carried by its Python string rendering, which
is opaque to every property proved here. -/
inductive ArgVal where
  | str (s : String)
  | int (n : Int)
  | floatRepr (r : String)
deriving DecidableEq

/-- Python f-string rendering of an argument value. -/
def ArgVal.render : ArgVal → String
  | .str s => s
  | .int n => toString n
  | .floatRepr r => r

/-- `p.split('/')` on a character list, as used by `posixpath.normpath`. -/
def splitSlash : List Char → List (List Char)
  | [] => [[]]
  | c :: cs =>
    if c = '/' then [] :: splitSlash cs
    else
      match splitSlash cs with
      | [] => [[c]]
      | p :: ps => (c :: p) :: ps

/-- The number of leading slashes `posixpath.normpath` keeps: one, or exactly
two when the path starts with `//` but not `///` (`path.startswith('//')
and not path.startswith('///')`). -/
def initSlashes (cs : List Char) : Nat :=
  if cs.head? = some '/' then
    if (cs.drop 1).head? = some '/' ∧ ¬ (cs.drop 2).head? = some '/' then 2 else 1
  else 0

/-- One step of the component loop of `posixpath.normpath`: drop empty and `.`
components, resolve `..` against the accumulated stack. -/
def npStep (slashes : Nat) (acc : List (List Char)) (comp : List Char) : List (List Char) :=
  if comp = [] ∨ comp = ['.'] then acc
  else if comp ≠ ['.', '.'] ∨ (slashes = 0 ∧ acc = []) ∨ acc.getLast? = some ['.', '.'] then
    acc ++ [comp]
  else acc.dropLast

/-- `'/'.join(comps)`. -/
def joinSlash : List (List Char) → List Char
  | [] => []
  | [c] => c
  | c :: cs => c ++ '/' :: joinSlash cs

/-- `posixpath.normpath` on a character list. -/
def npChars (p : List Char) : List Char :=
  if p = [] then ['.']
  else
    let slashes := initSlashes p
    let comps := (splitSlash p).foldl (npStep slashes) []
    let res := List.replicate slashes '/' ++ joinSlash comps
    if res = [] then ['.'] else res

/-- `posixpath.join(a, b)` for two components. -/
def joinPathChars (a b : List Char) : List Char :=
  if b.head? = some '/' then b
  else if a = [] ∨ a.getLast? = some '/' then a ++ b
  else a ++ '/' :: b

/-- `posixpath.abspath(p)` relative to the working directory `cwd`. -/
def abspathChars (cwd p : List Char) : List Char := npChars (joinPathChars cwd p)

/-- String-level `os.path.abspath`, with the working directory explicit. -/
def abspath (cwd p : String) : String := ⟨abspathChars cwd.data p.data⟩

/-- String-level `os.path.join` (posix rule). -/
def joinPath (a b : String) : String := ⟨joinPathChars a.data b.data⟩

/-- `File.file_name`: append the fixed extension when `check_extension` is set
and the stored path does not already end with it, then take `os.path.abspath`. -/
def fileNameC (cwd p : List Char) (check_extension : Bool) (ext : List Char) : List Char :=
  abspathChars cwd (if check_extension && !(decide (ext <:+ p)) then p ++ ext else p)

/-- String-level `File.file_name`. -/
def fileName (cwd file_path : String) (check_extension : Bool) (ext : String) : String :=
  ⟨fileNameC cwd.data file_path.data check_extension ext.data⟩

/-- The concrete `SingleArg` leaves of the hierarchy: `SingleArg` itself,
`KeyValueArg`, `Profile`, `JsonExport` and `HtmlExport` (the two `FileExport`
subclasses, whose `simc_arg` is `key=file_name`). -/
inductive SingleLike where
  | single (simc_arg : String)
  | keyValue (key : String) (arg : ArgVal)
  | profile (file_path : String) (check_extension : Bool)
  | jsonExport (file_path : String) (check_extension : Bool)
  | htmlExport (file_path : String) (check_extension : Bool)
deriving DecidableEq

/-- The `simc_arg` property of each leaf, with the working directory explicit. -/
def SingleLike.simcArg (cwd : String) : SingleLike → String
  | .single s => s
  | .keyValue k v => k ++ "=" ++ v.render
  | .profile p c => fileName cwd p c ".simc"
  | .jsonExport p c => "json2" ++ "=" ++ fileName cwd p c ".json"
  | .htmlExport p c => "html" ++ "=" ++ fileName cwd p c ".html"

/-- The `SimcArg` tree: leaves, `Arguments` (whose children are `SingleArg`s,
per its `args: List[SingleArg]` annotation) and `ProfileSet` (whose children
are arbitrary `SimcArg`s, via `HasArguments`). -/
inductive SimcArg where
  | singleLike (a : SingleLike)
  | arguments (args : List SingleLike)
  | profileSet (name : String) (args : List SimcArg)

/-- `ProfileSet.profile_name`: the name, wrapped in double quotes when it
contains a space (`' ' in self.name`). -/
def profileName (name : String) : String :=
  if ' ' ∈ name.data then "\"" ++ name ++ "\"" else name

/-- The loop of `ProfileSet.append_to`: emit one `profileset.<name><op><token>`
line per flattened token, with `op` starting at `=` and switching to `+=`. -/
def psetLoop (pname : String) : List String → List String → String → List String
  | [], acc, _ => acc
  | t :: ts, acc, op => psetLoop pname ts (acc ++ ["profileset." ++ pname ++ op ++ t]) "+="

mutual

/-- `SimcArg.append_to` of each node variant: `SingleArg.append_to` returns
`args + [self.simc_arg]`; `Arguments.append_to` copies and folds its children;
`ProfileSet.append_to` copies and runs the operator loop over `self.args_list`. -/
def SimcArg.appendTo (cwd : String) : SimcArg → List String → List String
  | .singleLike a, acc => acc ++ [a.simcArg cwd]
  | .arguments as, acc => as.foldl (fun r a => r ++ [a.simcArg cwd]) acc
  | .profileSet n as, acc => psetLoop (profileName n) (SimcArg.appendList cwd as []) acc "="

/-- The loop of `HasArguments.args_list`: fold `append_to` over the stored
nodes, threading the accumulator. -/
def SimcArg.appendList (cwd : String) : List SimcArg → List String → List String
  | [], acc => acc
  | a :: rest, acc => SimcArg.appendList cwd rest (a.appendTo cwd acc)

end

/-- `HasArguments.args_list`: fold `append_to` over the stored nodes starting
from the empty list. -/
def argsList (cwd : String) (args : List SimcArg) : List String :=
  SimcArg.appendList cwd args []

/-- A positional argument as accepted by `Arguments.add_arg`:
`Union[str, SingleArg]`. -/
inductive StrOrSingle where
  | str (s : String)
  | node (a : SingleLike)
deriving DecidableEq

/-- `Arguments.add_arg`: keep a `SingleArg` instance, wrap a bare string. -/
def argumentsAddArg (cur : List SingleLike) : StrOrSingle → List SingleLike
  | .str s => cur ++ [.single s]
  | .node a => cur ++ [a]

/-- The `Arguments.__init__` constructor: add every positional argument, then
one `KeyValueArg(key, value)` per keyword argument, in iteration order. -/
def argumentsOf (pos : List StrOrSingle) (kwargs : List (String × ArgVal)) : List SingleLike :=
  (kwargs.map fun kv => StrOrSingle.node (.keyValue kv.1 kv.2)).foldl argumentsAddArg
    (pos.foldl argumentsAddArg [])

/-- A positional argument as accepted by `HasArguments.add_arg`:
`Union[str, SimcArg]`. -/
inductive StrOrArg where
  | str (s : String)
  | node (a : SimcArg)

/-- The coercion performed by `HasArguments.add_arg`: a bare string becomes a
`SingleArg`, everything else is stored as given. -/
def toNode : StrOrArg → SimcArg
  | .str s => .singleLike (.single s)
  | .node a => a

/-- `HasArguments.add_args`: append each coerced positional argument, then a
single `Arguments(**kwargs)` node (appended even when `kwargs` is empty). -/
def addArgsTo (cur : List SimcArg) (pos : List StrOrArg)
    (kwargs : List (String × ArgVal)) : List SimcArg :=
  (cur ++ pos.map toNode) ++ [.arguments (argumentsOf [] kwargs)]

/-- `HasArguments.set_args`: clear the list, then `add_args`. -/
def setArgsTo (pos : List StrOrArg) (kwargs : List (String × ArgVal)) : List SimcArg :=
  addArgsTo [] pos kwargs

/-- One entry of `Simc.history`: the dict built by `Simc.run`, with the keys
that may be absent modelled as `Option`. -/
structure HistRecord where
  query : String
  returncode : Option Int
  output : Option String
  error : Option String
deriving DecidableEq

/-- The mutable state of a `Simc` runner. -/
structure SimcState where
  simc_path : String
  export_path : String
  args : List SimcArg
  history : List HistRecord

/-- What the operating system does when `subprocess.Popen` is invoked: either
the process launches, runs and exits (exit code, decoded stdout, decoded
stderr), or the launch itself fails with an `OSError`. -/
inductive LaunchOutcome where
  | ok (returncode : Int) (out : String) (err : String)
  | oserror (errno : Int) (strerror : String) (filename : String)

/-- `Simc.executable`: `os.path.join(simc_path, 'simc' + ext)`, with `.exe`
appended on Windows. -/
def SimcState.executable (s : SimcState) (windows : Bool) : String :=
  joinPath s.simc_path ("simc" ++ if windows then ".exe" else "")

/-- The header comment lines written by `Simc.export`, each starting with `#`;
`now` is the formatted `datetime.now()` reading. -/
def headerLines (now : String) : List String :=
  ["# Simc file generated by simcrunner",
   "# Created: " ++ now,
   "# Website: https://github.com/simcminmax/simcrunner"]

/-- A file written by `Simc.export`: its path and its lines (each line is
terminated by a newline in the actual file). -/
structure ExportFile where
  path : String
  lines : List String
deriving DecidableEq

/-- `Simc.export`: resolve the target path (`file_path or self.export_path`,
Python falsy test), then write the header lines followed by one line per
token of `self.args_list`. -/
def SimcState.exportFile (s : SimcState) (cwd now : String)
    (file_path : Option String) : ExportFile :=
  let path := match file_path with
    | some p => if p = "" then s.export_path else p
    | none => s.export_path
  { path := path, lines := headerLines now ++ argsList cwd s.args }

/-- `Simc.run`, with the subprocess interaction abstracted into a
`LaunchOutcome`.  On a successful launch the record carries the exit code and
the decoded streams when non-empty (`if out:` / `if err:` are Python truth
tests on bytes).  On `OSError` the exception is swallowed: the runner exports
the current arguments to `export_path` and the record keeps only the query.
In both cases exactly one record is appended to the history.  The second
component is the recovery file written, when one is. -/
def SimcState.run (s : SimcState) (cwd : String) (windows : Bool) (now : String)
    (outcome : LaunchOutcome) : SimcState × Option ExportFile :=
  let run_list := s.executable windows :: argsList cwd s.args
  let query : HistRecord :=
    { query := String.intercalate " " run_list
      returncode := none, output := none, error := none }
  match outcome with
  | .ok rc out err =>
    let query := { query with
      returncode := some rc
      output := if out = "" then none else some out
      error := if err = "" then none else some err }
    ({ s with history := s.history ++ [query] }, none)
  | .oserror _ _ _ =>
    ({ s with history := s.history ++ [query] }, some (s.exportFile cwd now none))

/-- The Python exceptions this embedding distinguishes. -/
inductive PyExc where
  | attributeError
  | indexError
deriving DecidableEq

/-- The executable-path resolution in `Simc.__init__`: when `simc_path` is
falsy (absent or empty), read `os.environ['SIMC_PATH']`, raising
`AttributeError` when the variable is unset. -/
def resolveSimcPath (simc_path env_simc_path : Option String) : Except PyExc String :=
  if simc_path.getD "" = "" then
    match env_simc_path with
    | some v => .ok v
    | none => .error .attributeError
  else .ok (simc_path.getD "")

/-- The export-path default in `Simc.__init__`:
`export_path or 'simcrunner_export.simc'` (Python falsy test). -/
def resolveExportPath : Option String → String
  | some e => if e = "" then "simcrunner_export.simc" else e
  | none => "simcrunner_export.simc"

/-- `Simc.__init__`: resolve the executable root, default the export path to
`'simcrunner_export.simc'` when falsy, start with an empty history, and set
the arguments via `HasArguments.set_args`. -/
def simcInit (pos : List StrOrArg) (kwargs : List (String × ArgVal))
    (simc_path export_path env_simc_path : Option String) : Except PyExc SimcState :=
  (resolveSimcPath simc_path env_simc_path).map fun p =>
    { simc_path := p
      export_path := resolveExportPath export_path
      args := setArgsTo pos kwargs
      history := [] }

/-- `Simc.last_query`: `self.history[-1]`, raising `IndexError` on an empty
list. -/
def lastQuery (s : SimcState) : Except PyExc HistRecord :=
  match s.history.getLast? with
  | some r => .ok r
  | none => .error .indexError

/-- `Simc.last_output`: `self.history[-1].get('output', None)`. -/
def lastOutput (s : SimcState) : Except PyExc (Option String) :=
  (lastQuery s).map fun r => r.output

/-- `Simc.last_error`: `self.history[-1].get('error', None)`. -/
def lastError (s : SimcState) : Except PyExc (Option String) :=
  (lastQuery s).map fun r => r.error

/-- An object stored in a `HasArguments.args` list once dynamic typing is
taken into account: a genuine `SimcArg`, or any other Python object (carried
by a description of its type), which has no `append_to` method. -/
inductive PyObj where
  | node (a : SimcArg)
  | other (desc : String)

/-- An item passed to `HasArguments.add_arg`: a string, a `SimcArg`, or some
unrecognized object. -/
inductive PyItem where
  | pystr (s : String)
  | pynode (a : SimcArg)
  | pyother (desc : String)

/-- `HasArguments.add_arg` under dynamic typing: `type(arg) is str` wraps the
string in a `SingleArg`; every other object, recognized or not, is appended
unchanged — there is no type check and no skipping. -/
def addArgDyn (cur : List PyObj) : PyItem → List PyObj
  | .pystr s => cur ++ [.node (.singleLike (.single s))]
  | .pynode a => cur ++ [.node a]
  | .pyother d => cur ++ [.other d]

/-- The `HasArguments.args_list` fold under dynamic typing: calling
`arg.append_to(res)` on an object without an `append_to` method raises
`AttributeError`, aborting the whole render. -/
def appendListDyn (cwd : String) : List PyObj → List String → Except String (List String)
  | [], acc => .ok acc
  | .node a :: rest, acc => appendListDyn cwd rest (a.appendTo cwd acc)
  | .other d :: _, _ =>
    .error ("AttributeError: " ++ d ++ " object has no attribute append_to")

/-- `HasArguments.args_list` under dynamic typing. -/
def argsListDyn (cwd : String) (objs : List PyObj) : Except String (List String) :=
  appendListDyn cwd objs []

/-- The rendering the specification describes for the same situation,
modelled from the spec: an unrecognized item is skipped and the remaining
arguments are rendered. -/
def argsListSpecSkip (cwd : String) (objs : List PyObj) : List String :=
  objs.foldl (fun acc o => match o with
    | .node a => a.appendTo cwd acc
    | .other _ => acc) []

/-- A heap of Python list objects, to make sharing and in-place mutation of
argument lists observable.  A reference is an index; reading a dangling
reference defaults to `[]`. -/
structure Heap where
  lists : List (List String)
deriving DecidableEq

/-- Read the list object behind a reference. -/
def Heap.read (h : Heap) (r : Nat) : List String := (h.lists.getD r [])

/-- Allocate a fresh list object, returning the new heap and its reference. -/
def Heap.alloc (h : Heap) (v : List String) : Heap × Nat :=
  (⟨h.lists ++ [v]⟩, h.lists.length)

/-- Overwrite the list object behind a reference (in-place mutation). -/
def Heap.write (h : Heap) (r : Nat) (v : List String) : Heap :=
  ⟨h.lists.set r v⟩

/-- `SingleArg.append_to` on the heap: `args + [self.simc_arg]` reads the
argument list and allocates a fresh list one element longer. -/
def appendToRefSingle (cwd : String) (a : SingleLike) (h : Heap) (r : Nat) : Heap × Nat :=
  h.alloc (h.read r ++ [a.simcArg cwd])

/-- `Arguments.append_to` on the heap: `new_args = args.copy()` allocates a
copy, then each child's `append_to` rebinds `new_args` to a fresh list. -/
def appendToRefArguments (cwd : String) (as : List SingleLike) (h : Heap) (r : Nat) :
    Heap × Nat :=
  as.foldl (fun hr a => appendToRefSingle cwd a hr.1 hr.2) (h.alloc (h.read r))

/-- `ProfileSet.append_to` on the heap: `new_args = args.copy()` allocates a
copy, then `new_args.append(...)` mutates that copy in place once per line of
the operator loop. -/
def appendToRefPset (cwd name : String) (as : List SimcArg) (h : Heap) (r : Nat) :
    Heap × Nat :=
  let hr := h.alloc (h.read r)
  let toks := psetLoop (profileName name) (argsList cwd as) [] "="
  (toks.foldl (fun hh t => hh.write hr.2 (hh.read hr.2 ++ [t])) hr.1, hr.2)

/-- `append_to` on the heap, dispatched over the node variants. -/
def SimcArg.appendToRef (cwd : String) : SimcArg → Heap → Nat → Heap × Nat
  | .singleLike a => appendToRefSingle cwd a
  | .arguments as => appendToRefArguments cwd as
  | .profileSet n as => appendToRefPset cwd n as

/-- The operations a caller can apply to a constructed `Simc` runner. -/
inductive SimcOp where
  | runOp (outcome : LaunchOutcome) (now : String)
  | setArgsOp (pos : List StrOrArg) (kwargs : List (String × ArgVal))
  | addArgsOp (pos : List StrOrArg) (kwargs : List (String × ArgVal))
  | addArgOp (a : StrOrArg)
  | exportOp (file_path : Option String) (now : String)

/-- Whether an operation is a `run` invocation. -/
def SimcOp.isRun : SimcOp → Bool
  | .runOp _ _ => true
  | _ => false

/-- The effect of one operation on the runner state (the recovery file a
failed `run` writes, and the file `export` writes, live outside the state). -/
def SimcState.applyOp (s : SimcState) (cwd : String) (windows : Bool) :
    SimcOp → SimcState
  | .runOp outcome now => (s.run cwd windows now outcome).1
  | .setArgsOp pos kwargs => { s with args := setArgsTo pos kwargs }
  | .addArgsOp pos kwargs => { s with args := addArgsTo s.args pos kwargs }
  | .addArgOp a => { s with args := s.args ++ [toNode a] }
  | .exportOp _ _ => s

/-- The effect of a sequence of operations. -/
def SimcState.applyOps (s : SimcState) (cwd : String) (windows : Bool)
    (ops : List SimcOp) : SimcState :=
  ops.foldl (fun st op => st.applyOp cwd windows op) s

/-- A path component that `posixpath.normpath` passes through unchanged:
non-empty, not `.`, not `..`, and slash-free. -/
def GoodComp (c : List Char) : Prop :=
  c ≠ [] ∧ c ≠ ['.'] ∧ c ≠ ['.', '.'] ∧ '/' ∉ c

/- ===================== theorems ===================== -/

section Lemmas

/-- The `Arguments.append_to` fold appends one token per child. -/
theorem foldl_append_map (cwd : String) (as : List SingleLike) (acc : List String) :
    as.foldl (fun r a => r ++ [a.simcArg cwd]) acc = acc ++ as.map (SingleLike.simcArg cwd) := by
  induction as generalizing acc with
  | nil => simp
  | cons a as ih => simp [List.foldl_cons, ih]

/-- The `ProfileSet.append_to` loop with operator already switched to `+=`. -/
theorem psetLoop_plus (pn : String) (ts : List String) (acc : List String) :
    psetLoop pn ts acc "+=" = acc ++ ts.map (fun t => "profileset." ++ pn ++ "+=" ++ t) := by
  induction ts generalizing acc with
  | nil => simp [psetLoop]
  | cons t ts ih => simp [psetLoop, ih]

/-- The `ProfileSet.append_to` loop on a non-empty token list: the first token
gets `=`, every later one `+=`. -/
theorem psetLoop_cons (pn : String) (t : String) (ts : List String) (acc : List String)
    (op : String) :
    psetLoop pn (t :: ts) acc op =
      acc ++ ("profileset." ++ pn ++ op ++ t) ::
        ts.map (fun u => "profileset." ++ pn ++ "+=" ++ u) := by
  simp [psetLoop, psetLoop_plus]

/-- `append_to` only appends: the result is the input followed by the node's
own tokens. -/
theorem appendTo_append (cwd : String) (a : SimcArg) (acc : List String) :
    a.appendTo cwd acc = acc ++ a.appendTo cwd [] := by
  cases a with
  | singleLike s => simp [SimcArg.appendTo]
  | arguments as => simp [SimcArg.appendTo, foldl_append_map]
  | profileSet n as =>
    show psetLoop _ _ acc "=" = acc ++ psetLoop _ _ [] "="
    cases h : SimcArg.appendList cwd as [] with
    | nil => simp [psetLoop]
    | cons t ts => rw [psetLoop_cons, psetLoop_cons]; simp

/-- The `args_list` fold only appends. -/
theorem appendList_append (cwd : String) (l : List SimcArg) (acc : List String) :
    SimcArg.appendList cwd l acc = acc ++ argsList cwd l := by
  induction l generalizing acc with
  | nil => simp [SimcArg.appendList, argsList]
  | cons a rest ih =>
    show SimcArg.appendList cwd rest (a.appendTo cwd acc) = acc ++ argsList cwd (a :: rest)
    have h2 : argsList cwd (a :: rest) = a.appendTo cwd [] ++ argsList cwd rest := by
      show SimcArg.appendList cwd rest (a.appendTo cwd []) = _
      rw [ih (a.appendTo cwd [])]
    rw [ih (a.appendTo cwd acc), appendTo_append, h2]
    simp

/-- Reading a list back by position recovers `map`. -/
theorem map_getD_range {α β : Type} (l : List α) (g : α → β) (d : α) :
    (List.range l.length).map (fun i => g (l.getD i d)) = l.map g := by
  induction l with
  | nil => simp
  | cons a l ih =>
    rw [List.length_cons, List.range_succ_eq_map]
    simp only [List.map_cons, List.map_map]
    refine congrArg₂ _ rfl ?_
    rw [show ((fun i => g ((a :: l).getD i d)) ∘ Nat.succ) = (fun i => g (l.getD i d)) from
      funext fun i => by simp [Function.comp, List.getD_cons_succ]]
    exact ih

end Lemmas

/-- C1: appending a `ProfileSet` named `n` to a prefix yields the prefix
followed by one `profileset.<N><op><t_i>` token per flattened child token
`t_i`, with `op` equal to `=` exactly at token index 0 and `+=` at every
later index, and `N` equal to `n` wrapped in double quotes exactly when `n`
contains a space. -/
theorem C1_profileset_rendering (cwd name : String) (as : List SimcArg)
    (pre : List String) (hk : 1 ≤ (argsList cwd as).length) :
    SimcArg.appendTo cwd (.profileSet name as) pre =
      pre ++ (List.range (argsList cwd as).length).map (fun i =>
        "profileset." ++ (if ' ' ∈ name.data then "\"" ++ name ++ "\"" else name) ++
          (if i = 0 then "=" else "+=") ++ (argsList cwd as).getD i "") := by
  show psetLoop (profileName name) (SimcArg.appendList cwd as []) pre "=" = _
  rw [show SimcArg.appendList cwd as [] = argsList cwd as from rfl]
  cases h : argsList cwd as with
  | nil => rw [h] at hk; simp at hk
  | cons t ts =>
    rw [psetLoop_cons]
    rw [List.length_cons, List.range_succ_eq_map]
    simp only [List.map_cons, List.map_map, List.getD_cons_zero, if_pos rfl]
    refine congrArg _ (congrArg₂ _ (by rfl) ?_)
    rw [show ((fun i => "profileset." ++
          (if ' ' ∈ name.data then "\"" ++ name ++ "\"" else name) ++
          (if i = 0 then "=" else "+=") ++ ((t :: ts).getD i "")) ∘ Nat.succ) =
        (fun i => "profileset." ++ profileName name ++ "+=" ++ (ts.getD i "")) from
      funext fun i => by
        simp [Function.comp, List.getD_cons_succ, profileName, Nat.succ_ne_zero]]
    rw [map_getD_range ts (fun u => "profileset." ++ profileName name ++ "+=" ++ u) ""]

/-- C1 witness at a concrete profile set. -/
theorem C1_profileset_rendering_witness :
    1 ≤ (argsList "/" [.singleLike (.single "a"), .singleLike (.single "b")]).length ∧
    SimcArg.appendTo "/" (.profileSet "Raid Buffs"
        [.singleLike (.single "a"), .singleLike (.single "b")]) ["X"] =
      ["X"] ++ (List.range (argsList "/" [.singleLike (.single "a"),
          .singleLike (.single "b")]).length).map (fun i =>
        "profileset." ++ (if ' ' ∈ "Raid Buffs".data then "\"" ++ "Raid Buffs" ++ "\""
            else "Raid Buffs") ++
          (if i = 0 then "=" else "+=") ++
          (argsList "/" [.singleLike (.single "a"), .singleLike (.single "b")]).getD i "") :=
  ⟨by decide, C1_profileset_rendering "/" "Raid Buffs"
    [.singleLike (.single "a"), .singleLike (.single "b")] ["X"] (by decide)⟩

/-- C4: an `Arguments` composite renders its positional children in insertion
order (bare strings wrapped as literals), followed by one `key=value` token
per keyword pair in mapping order, appended after the whole input list. -/
theorem C4_arguments_order (cwd : String) (pos : List StrOrSingle)
    (kwargs : List (String × ArgVal)) (xs : List String) :
    SimcArg.appendTo cwd (.arguments (argumentsOf pos kwargs)) xs =
      (xs ++ pos.map (fun p => match p with
        | .str s => s
        | .node a => a.simcArg cwd)) ++
        kwargs.map (fun kv => kv.1 ++ "=" ++ kv.2.render) := by
  have hadd : ∀ (l : List StrOrSingle) (cur : List SingleLike),
      l.foldl argumentsAddArg cur = cur ++ l.map (fun p => match p with
        | StrOrSingle.str s => SingleLike.single s
        | StrOrSingle.node a => a) := by
    intro l
    induction l with
    | nil => simp
    | cons p l ih =>
      intro cur
      cases p <;> simp [argumentsAddArg, ih]
  show (argumentsOf pos kwargs).foldl (fun r a => r ++ [a.simcArg cwd]) xs = _
  rw [foldl_append_map, argumentsOf, hadd, hadd]
  simp only [List.map_map, List.map_append, List.nil_append, List.append_assoc]
  refine congrArg _ (congrArg₂ _ ?_ ?_)
  · exact List.map_congr_left fun p _ => by
      cases p <;> simp [SingleLike.simcArg, Function.comp]
  · exact List.map_congr_left fun kv _ => by
      simp [SingleLike.simcArg, Function.comp]

/-- C10: on a runner whose history is empty, `last_query`, `last_output` and
`last_error` all raise `IndexError` instead of returning an absent value; on a
non-empty history they read the most recently appended record, `last_output`
and `last_error` yielding the record's optional fields. -/
theorem C10_last_accessors (s : SimcState) :
    (s.history = [] →
      lastQuery s = .error .indexError ∧
      lastOutput s = .error .indexError ∧
      lastError s = .error .indexError) ∧
    (∀ (h' : List HistRecord) (r : HistRecord), s.history = h' ++ [r] →
      lastQuery s = .ok r ∧
      lastOutput s = .ok r.output ∧
      lastError s = .ok r.error) := by
  constructor
  · intro h
    simp [lastQuery, lastOutput, lastError, h, Except.map]
  · intro h' r h
    have hq : lastQuery s = .ok r := by
      simp [lastQuery, h, List.getLast?_concat]
    refine ⟨hq, ?_, ?_⟩ <;> simp [lastOutput, lastError, hq, Except.map]

/-- C10 witness: both branches at concrete states. -/
theorem C10_last_accessors_witness :
    (lastQuery ⟨"p", "e", [], []⟩ = .error .indexError ∧
     lastOutput ⟨"p", "e", [], []⟩ = .error .indexError ∧
     lastError ⟨"p", "e", [], []⟩ = .error .indexError) ∧
    (lastQuery ⟨"p", "e", [], [⟨"q", some 0, some "o", none⟩]⟩ =
        .ok ⟨"q", some 0, some "o", none⟩ ∧
     lastOutput ⟨"p", "e", [], [⟨"q", some 0, some "o", none⟩]⟩ = .ok (some "o") ∧
     lastError ⟨"p", "e", [], [⟨"q", some 0, some "o", none⟩]⟩ = .ok none) :=
  ⟨(C10_last_accessors ⟨"p", "e", [], []⟩).1 rfl,
   (C10_last_accessors ⟨"p", "e", [], [⟨"q", some 0, some "o", none⟩]⟩).2
     [] ⟨"q", some 0, some "o", none⟩ rfl⟩

/-- C5: constructing a `Simc` with neither an explicit `simc_path` nor the
`SIMC_PATH` environment variable raises a configuration error
(`AttributeError`); with a non-empty explicit path or with the environment
variable present, construction succeeds and stores the resolved path. -/
theorem C5_construction (pos : List StrOrArg) (kwargs : List (String × ArgVal))
    (export_path : Option String) :
    (simcInit pos kwargs none export_path none = .error .attributeError) ∧
    (∀ (p : String) (env : Option String), p ≠ "" →
      ∃ st, simcInit pos kwargs (some p) export_path env = .ok st ∧
        st.simc_path = p ∧ st.history = []) ∧
    (∀ v : String,
      ∃ st, simcInit pos kwargs none export_path (some v) = .ok st ∧
        st.simc_path = v ∧ st.history = []) := by
  refine ⟨?_, ?_, ?_⟩
  · simp [simcInit, resolveSimcPath, Except.map]
  · intro p env hp
    refine ⟨⟨p, resolveExportPath export_path, setArgsTo pos kwargs, []⟩, ?_, rfl, rfl⟩
    simp [simcInit, resolveSimcPath, hp, Except.map]
  · intro v
    refine ⟨⟨v, resolveExportPath export_path, setArgsTo pos kwargs, []⟩, ?_, rfl, rfl⟩
    simp [simcInit, resolveSimcPath, Except.map]

/-- C5 witness: a concrete successful construction from an explicit path. -/
theorem C5_construction_witness :
    ("/opt/simc" ≠ "") ∧
    ∃ st, simcInit [] [] (some "/opt/simc") none none = .ok st ∧
      st.simc_path = "/opt/simc" ∧ st.history = [] :=
  ⟨by decide, (C5_construction [] [] none).2.1 "/opt/simc" none (by decide)⟩

/-- C2: when the subprocess launch fails with `OSError`, `run` swallows the
exception (it is a total transition in this model), appends exactly one
history record whose `returncode`, `output` and `error` fields are all
absent, and writes the recovery file at the configured `export_path`, whose
lines are the `#`-prefixed header comments followed by the currently
configured argument tokens in render order, one per line. -/
theorem C2_launch_failure (s : SimcState) (cwd now : String) (windows : Bool)
    (en : Int) (es ef : String) :
    (s.run cwd windows now (.oserror en es ef)).1.history =
      s.history ++
        [{ query := String.intercalate " " (s.executable windows :: argsList cwd s.args),
           returncode := none, output := none, error := none }] ∧
    (s.run cwd windows now (.oserror en es ef)).2 =
      some { path := s.export_path, lines := headerLines now ++ argsList cwd s.args } ∧
    (headerLines now).map (fun l => l.data.head?) = [some '#', some '#', some '#'] := by
  refine ⟨rfl, rfl, ?_⟩
  have h2 : ("# Created: " ++ now).data.head? = some '#' := by
    rw [String.data_append]
    rfl
  simp [headerLines, h2]

/-- Every single operation extends the history by zero records, or by one
when it is a `run`. -/
theorem applyOp_history (s : SimcState) (cwd : String) (windows : Bool) (op : SimcOp) :
    ∃ l : List HistRecord, (s.applyOp cwd windows op).history = s.history ++ l ∧
      l.length = (if op.isRun then 1 else 0) := by
  cases op with
  | runOp outcome now =>
    cases outcome with
    | ok rc out err => exact ⟨_, rfl, rfl⟩
    | oserror en es ef => exact ⟨_, rfl, rfl⟩
  | setArgsOp pos kwargs => exact ⟨[], by simp [SimcState.applyOp, SimcOp.isRun]⟩
  | addArgsOp pos kwargs => exact ⟨[], by simp [SimcState.applyOp, SimcOp.isRun]⟩
  | addArgOp a => exact ⟨[], by simp [SimcState.applyOp, SimcOp.isRun]⟩
  | exportOp fp now => exact ⟨[], by simp [SimcState.applyOp, SimcOp.isRun]⟩

/-- C6: each `run` invocation appends exactly one history record, and over any
sequence of operations the history only grows at the end: the prior history
stays an unchanged prefix, and the number of new records equals the number of
`run` operations in the sequence. -/
theorem C6_history_append_only (cwd : String) (windows : Bool) (s : SimcState)
    (ops : List SimcOp) :
    (∀ (outcome : LaunchOutcome) (now : String),
      ∃ r : HistRecord,
        (s.applyOp cwd windows (.runOp outcome now)).history = s.history ++ [r]) ∧
    (∃ recs : List HistRecord,
      (s.applyOps cwd windows ops).history = s.history ++ recs ∧
      recs.length = (ops.filter SimcOp.isRun).length) := by
  constructor
  · intro outcome now
    obtain ⟨l, hl, hlen⟩ := applyOp_history s cwd windows (.runOp outcome now)
    have : l.length = 1 := by simpa [SimcOp.isRun] using hlen
    obtain ⟨r, hr⟩ := List.length_eq_one.mp this
    exact ⟨r, by rw [hl, hr]⟩
  · induction ops generalizing s with
    | nil => exact ⟨[], by simp [SimcState.applyOps]⟩
    | cons op ops ih =>
      obtain ⟨l, hl, hlen⟩ := applyOp_history s cwd windows op
      obtain ⟨recs, hrecs, hrlen⟩ := ih (s.applyOp cwd windows op)
      refine ⟨l ++ recs, ?_, ?_⟩
      · show ((s.applyOp cwd windows op).applyOps cwd windows ops).history = _
        rw [hrecs, hl, List.append_assoc]
      · rw [List.length_append, hrlen, List.filter_cons]
        cases h : op.isRun <;> simp [h, hlen, Nat.add_comm]

/-- C7 counterexample: an unrecognized object reaching `args_list` is not
skipped; the whole render fails with `AttributeError`, while the behavior the
claim describes would have produced the remaining tokens. -/
theorem C7_counterexample :
    argsListDyn "/" [.other "Foo", .node (.singleLike (.single "a"))] ≠ .ok ["a"] ∧
    argsListSpecSkip "/" [.other "Foo", .node (.singleLike (.single "a"))] = ["a"] ∧
    argsListDyn "/" [.other "Foo", .node (.singleLike (.single "a"))] =
      .error ("AttributeError: " ++ "Foo" ++ " object has no attribute append_to") := by
  refine ⟨fun h => ?_, rfl, rfl⟩
  have h2 : Except.error (ε := String) (α := List String)
      ("AttributeError: " ++ "Foo" ++ " object has no attribute append_to") = .ok ["a"] := h
  cases h2

/-- C7 amended: `HasArguments.add_arg` appends an item that is neither a bare
string nor an argument node unchanged (nothing is skipped at insertion), and
when such an item reaches the flattening step, the whole render fails with an
`AttributeError` — no warning-and-skip takes place and the remaining
arguments are not rendered. -/
theorem C7_amended (cwd : String) (xs : List PyObj) (d : String) (ys : List PyObj)
    (hx : ∀ x ∈ xs, ∃ a, x = PyObj.node a) :
    (∀ cur : List PyObj, addArgDyn cur (.pyother d) = cur ++ [.other d]) ∧
    argsListDyn cwd (xs ++ .other d :: ys) =
      .error ("AttributeError: " ++ d ++ " object has no attribute append_to") := by
  refine ⟨fun cur => rfl, ?_⟩
  suffices h : ∀ (xs : List PyObj) (acc : List String), (∀ x ∈ xs, ∃ a, x = PyObj.node a) →
      appendListDyn cwd (xs ++ .other d :: ys) acc =
        .error ("AttributeError: " ++ d ++ " object has no attribute append_to") from
    h xs [] hx
  intro xs
  induction xs with
  | nil => intro acc _; rfl
  | cons x xs ih =>
    intro acc hall
    obtain ⟨a, rfl⟩ := hall x (List.mem_cons_self x xs)
    show appendListDyn cwd (xs ++ .other d :: ys) (a.appendTo cwd acc) = _
    exact ih _ (fun y hy => hall y (List.mem_cons_of_mem _ hy))

/-- C7 amended, witness at a concrete argument list. -/
theorem C7_amended_witness :
    (addArgDyn [] (.pyother "Foo") = [.other "Foo"]) ∧
    argsListDyn "/" ([] ++ .other "Foo" :: [.node (.singleLike (.single "a"))]) =
      .error ("AttributeError: " ++ "Foo" ++ " object has no attribute append_to") :=
  ⟨(C7_amended "/" [] "Foo" [.node (.singleLike (.single "a"))] (by simp)).1 [],
   (C7_amended "/" [] "Foo" [.node (.singleLike (.single "a"))] (by simp)).2⟩

section HeapLemmas

/-- Allocation grows the heap by one slot. -/
theorem Heap.length_alloc (h : Heap) (v : List String) :
    (h.alloc v).1.lists.length = h.lists.length + 1 := by
  simp [Heap.alloc]

/-- Allocation does not disturb any existing slot. -/
theorem Heap.read_alloc_lt (h : Heap) (v : List String) {i : Nat}
    (hi : i < h.lists.length) : (h.alloc v).1.read i = h.read i := by
  simp [Heap.alloc, Heap.read, List.getD_eq_getElem?_getD, List.getElem?_append_left hi]

/-- The freshly allocated slot holds the allocated value. -/
theorem Heap.read_alloc_self (h : Heap) (v : List String) :
    (h.alloc v).1.read (h.alloc v).2 = v := by
  simp [Heap.alloc, Heap.read, List.getD_eq_getElem?_getD, List.getElem?_concat_length]

/-- Writing preserves the heap size. -/
theorem Heap.length_write (h : Heap) (r : Nat) (v : List String) :
    (h.write r v).lists.length = h.lists.length := by
  simp [Heap.write]

/-- Writing one slot does not disturb any other slot. -/
theorem Heap.read_write_ne (h : Heap) (r : Nat) (v : List String) {i : Nat}
    (hne : i ≠ r) : (h.write r v).read i = h.read i := by
  simp [Heap.write, Heap.read, List.getD_eq_getElem?_getD,
    List.getElem?_set_ne (Ne.symm hne)]

/-- Writing a valid slot stores the value. -/
theorem Heap.read_write_self (h : Heap) (r : Nat) (v : List String)
    (hr : r < h.lists.length) : (h.write r v).read r = v := by
  simp [Heap.write, Heap.read, List.getD_eq_getElem?_getD, List.getElem?_set_self hr]

/-- The `Arguments.append_to` fold on the heap: existing slots survive, the
final reference is fresh and holds the input list followed by one token per
child. -/
theorem foldSingleRef_spec (cwd : String) (as : List SingleLike) :
    ∀ p : Heap × Nat, p.2 < p.1.lists.length →
      (p.1.lists.length ≤
        (as.foldl (fun hr a => appendToRefSingle cwd a hr.1 hr.2) p).1.lists.length) ∧
      (p.2 ≤ (as.foldl (fun hr a => appendToRefSingle cwd a hr.1 hr.2) p).2) ∧
      ((as.foldl (fun hr a => appendToRefSingle cwd a hr.1 hr.2) p).2 <
        (as.foldl (fun hr a => appendToRefSingle cwd a hr.1 hr.2) p).1.lists.length) ∧
      (∀ j, j < p.1.lists.length →
        (as.foldl (fun hr a => appendToRefSingle cwd a hr.1 hr.2) p).1.read j = p.1.read j) ∧
      ((as.foldl (fun hr a => appendToRefSingle cwd a hr.1 hr.2) p).1.read
          (as.foldl (fun hr a => appendToRefSingle cwd a hr.1 hr.2) p).2 =
        p.1.read p.2 ++ as.map (SingleLike.simcArg cwd)) := by
  induction as with
  | nil =>
    intro p hp
    exact ⟨Nat.le_refl _, Nat.le_refl _, hp, fun j _ => rfl, by simp⟩
  | cons a as ih =>
    intro p hp
    obtain ⟨h, r⟩ := p
    simp only at hp
    have hstep : appendToRefSingle cwd a h r = h.alloc (h.read r ++ [a.simcArg cwd]) := rfl
    have h1len : (h.alloc (h.read r ++ [a.simcArg cwd])).1.lists.length = h.lists.length + 1 :=
      Heap.length_alloc h _
    have hr1 : (h.alloc (h.read r ++ [a.simcArg cwd])).2 <
        (h.alloc (h.read r ++ [a.simcArg cwd])).1.lists.length := by
      rw [h1len]; exact Nat.lt_succ_self _
    obtain ⟨ilen, iref, irlt, iframe, iread⟩ := ih (h.alloc (h.read r ++ [a.simcArg cwd])) hr1
    rw [List.foldl_cons]
    dsimp only
    rw [hstep]
    refine ⟨?_, ?_, irlt, ?_, ?_⟩
    · exact le_trans (by rw [h1len]; exact Nat.le_succ _) ilen
    · exact le_trans (Nat.le_of_lt hp) iref
    · intro j hj
      rw [iframe j (by rw [h1len]; exact Nat.lt_succ_of_lt hj)]
      exact Heap.read_alloc_lt h _ hj
    · rw [iread, Heap.read_alloc_self]
      simp

/-- The `ProfileSet.append_to` write loop on the heap: it only touches the
copy's slot, appending the token lines there. -/
theorem foldWriteRef_spec (toks : List String) (r1 : Nat) :
    ∀ h : Heap, r1 < h.lists.length →
      ((toks.foldl (fun hh t => hh.write r1 (hh.read r1 ++ [t])) h).lists.length =
        h.lists.length) ∧
      (∀ j, j ≠ r1 →
        (toks.foldl (fun hh t => hh.write r1 (hh.read r1 ++ [t])) h).read j = h.read j) ∧
      ((toks.foldl (fun hh t => hh.write r1 (hh.read r1 ++ [t])) h).read r1 =
        h.read r1 ++ toks) := by
  induction toks with
  | nil => intro h _; exact ⟨rfl, fun j _ => rfl, by simp⟩
  | cons t ts ih =>
    intro h hr
    have hlen' : (h.write r1 (h.read r1 ++ [t])).lists.length = h.lists.length :=
      Heap.length_write h _ _
    obtain ⟨ilen, iframe, iread⟩ := ih (h.write r1 (h.read r1 ++ [t])) (by rw [hlen']; exact hr)
    rw [List.foldl_cons]
    refine ⟨by rw [ilen, hlen'], ?_, ?_⟩
    · intro j hj
      rw [iframe j hj, Heap.read_write_ne h _ _ hj]
    · rw [iread, Heap.read_write_self h _ _ hr]
      simp

/-- `append_to` on the heap: the heap only grows, the input slot is never
written, the returned reference is fresh, and it holds the input list
followed by exactly the node's own tokens. -/
theorem appendToRef_spec (cwd : String) (a : SimcArg) (h : Heap) (r : Nat)
    (hr : r < h.lists.length) :
    (h.lists.length ≤ (a.appendToRef cwd h r).1.lists.length) ∧
    (h.lists.length ≤ (a.appendToRef cwd h r).2) ∧
    ((a.appendToRef cwd h r).2 < (a.appendToRef cwd h r).1.lists.length) ∧
    (∀ j, j < h.lists.length → (a.appendToRef cwd h r).1.read j = h.read j) ∧
    ((a.appendToRef cwd h r).1.read (a.appendToRef cwd h r).2 =
      h.read r ++ a.appendTo cwd []) := by
  cases a with
  | singleLike s =>
    refine ⟨?_, ?_, ?_, ?_, ?_⟩
    · rw [show (SimcArg.appendToRef cwd (.singleLike s) h r).1.lists.length =
        h.lists.length + 1 from Heap.length_alloc h _]
      exact Nat.le_succ _
    · exact Nat.le_refl _
    · rw [show (SimcArg.appendToRef cwd (.singleLike s) h r).1.lists.length =
        h.lists.length + 1 from Heap.length_alloc h _]
      exact Nat.lt_succ_self _
    · intro j hj
      exact Heap.read_alloc_lt h _ hj
    · rw [show (SimcArg.appendToRef cwd (.singleLike s) h r).1.read
          (SimcArg.appendToRef cwd (.singleLike s) h r).2 =
          h.read r ++ [s.simcArg cwd] from Heap.read_alloc_self h _]
      simp [SimcArg.appendTo]
  | arguments as =>
    have h1len : (h.alloc (h.read r)).1.lists.length = h.lists.length + 1 :=
      Heap.length_alloc h _
    have hr1 : (h.alloc (h.read r)).2 < (h.alloc (h.read r)).1.lists.length := by
      rw [h1len]; exact Nat.lt_succ_self _
    obtain ⟨ilen, iref, irlt, iframe, iread⟩ :=
      foldSingleRef_spec cwd as (h.alloc (h.read r)) hr1
    refine ⟨?_, ?_, irlt, ?_, ?_⟩
    · exact le_trans (by rw [h1len]; exact Nat.le_succ _) ilen
    · exact iref
    · intro j hj
      rw [show (SimcArg.appendToRef cwd (.arguments as) h r).1.read j =
        (h.alloc (h.read r)).1.read j from
          iframe j (by rw [h1len]; exact Nat.lt_succ_of_lt hj)]
      exact Heap.read_alloc_lt h _ hj
    · rw [show (SimcArg.appendToRef cwd (.arguments as) h r).1.read
          (SimcArg.appendToRef cwd (.arguments as) h r).2 =
          (h.alloc (h.read r)).1.read (h.alloc (h.read r)).2 ++
            as.map (SingleLike.simcArg cwd) from iread,
        Heap.read_alloc_self]
      simp [SimcArg.appendTo, foldl_append_map]
  | profileSet n as =>
    have h1len : (h.alloc (h.read r)).1.lists.length = h.lists.length + 1 :=
      Heap.length_alloc h _
    have hr1 : (h.alloc (h.read r)).2 < (h.alloc (h.read r)).1.lists.length := by
      rw [h1len]; exact Nat.lt_succ_self _
    obtain ⟨ilen, iframe, iread⟩ :=
      foldWriteRef_spec (psetLoop (profileName n) (argsList cwd as) [] "=")
        (h.alloc (h.read r)).2 (h.alloc (h.read r)).1 hr1
    refine ⟨?_, Nat.le_refl _, ?_, ?_, ?_⟩
    · rw [show (SimcArg.appendToRef cwd (.profileSet n as) h r).1.lists.length =
        (h.alloc (h.read r)).1.lists.length from ilen, h1len]
      exact Nat.le_succ _
    · rw [show (SimcArg.appendToRef cwd (.profileSet n as) h r).1.lists.length =
        (h.alloc (h.read r)).1.lists.length from ilen, h1len]
      exact Nat.lt_succ_self _
    · intro j hj
      rw [show (SimcArg.appendToRef cwd (.profileSet n as) h r).1.read j =
        (h.alloc (h.read r)).1.read j from iframe j (Nat.ne_of_lt hj)]
      exact Heap.read_alloc_lt h _ hj
    · rw [show (SimcArg.appendToRef cwd (.profileSet n as) h r).1.read
          (SimcArg.appendToRef cwd (.profileSet n as) h r).2 =
          (h.alloc (h.read r)).1.read (h.alloc (h.read r)).2 ++
            psetLoop (profileName n) (argsList cwd as) [] "=" from iread,
        Heap.read_alloc_self]
      rfl

end HeapLemmas

/-- C9: `append_to` is a pure transformation on every node variant: on the
heap model the input list's slot is left unchanged, a fresh (new) reference
is returned whose contents are the input list followed by exactly the node's
own tokens, and a repeated call reusing the same input reference (as with the
shared default-empty-list argument) yields the same contents again. -/
theorem C9_render_is_pure (cwd : String) (a : SimcArg) (h : Heap) (r : Nat)
    (hr : r < h.lists.length) :
    ((a.appendToRef cwd h r).1.read r = h.read r) ∧
    ((a.appendToRef cwd h r).2 ≠ r) ∧
    ((a.appendToRef cwd h r).1.read (a.appendToRef cwd h r).2 =
      h.read r ++ a.appendTo cwd []) ∧
    ((a.appendToRef cwd (a.appendToRef cwd h r).1 r).1.read
        (a.appendToRef cwd (a.appendToRef cwd h r).1 r).2 =
      h.read r ++ a.appendTo cwd []) := by
  obtain ⟨hlen, href, _, hframe, hread⟩ := appendToRef_spec cwd a h r hr
  have hfr : (a.appendToRef cwd h r).1.read r = h.read r := hframe r hr
  have hr' : r < (a.appendToRef cwd h r).1.lists.length := Nat.lt_of_lt_of_le hr hlen
  obtain ⟨_, _, _, _, hread2⟩ := appendToRef_spec cwd a (a.appendToRef cwd h r).1 r hr'
  refine ⟨hfr, ?_, hread, ?_⟩
  · exact Nat.ne_of_gt (Nat.lt_of_lt_of_le hr href)
  · rw [hread2, hfr]

/-- C9 witness at a concrete literal node and one-slot heap. -/
theorem C9_render_is_pure_witness :
    (0 < (Heap.mk [["x"]]).lists.length) ∧
    (((SimcArg.singleLike (.single "y")).appendToRef "/" ⟨[["x"]]⟩ 0).1.read 0 =
        (Heap.mk [["x"]]).read 0 ∧
      ((SimcArg.singleLike (.single "y")).appendToRef "/" ⟨[["x"]]⟩ 0).2 ≠ 0 ∧
      ((SimcArg.singleLike (.single "y")).appendToRef "/" ⟨[["x"]]⟩ 0).1.read
          ((SimcArg.singleLike (.single "y")).appendToRef "/" ⟨[["x"]]⟩ 0).2 =
        (Heap.mk [["x"]]).read 0 ++ (SimcArg.singleLike (.single "y")).appendTo "/" [] ∧
      ((SimcArg.singleLike (.single "y")).appendToRef "/"
          ((SimcArg.singleLike (.single "y")).appendToRef "/" ⟨[["x"]]⟩ 0).1 0).1.read
          ((SimcArg.singleLike (.single "y")).appendToRef "/"
            ((SimcArg.singleLike (.single "y")).appendToRef "/" ⟨[["x"]]⟩ 0).1 0).2 =
        (Heap.mk [["x"]]).read 0 ++ (SimcArg.singleLike (.single "y")).appendTo "/" []) :=
  ⟨by decide, C9_render_is_pure "/" (.singleLike (.single "y")) ⟨[["x"]]⟩ 0 (by decide)⟩

section NormpathLemmas

/-- `split('/')` never returns an empty list of parts. -/
theorem splitSlash_ne_nil (cs : List Char) : splitSlash cs ≠ [] := by
  induction cs with
  | nil => simp [splitSlash]
  | cons c cs ih =>
    simp only [splitSlash]
    split
    · simp
    · cases h : splitSlash cs with
      | nil => exact absurd h ih
      | cons p ps => simp

/-- Splitting after a slash starts a new part. -/
theorem splitSlash_cons_slash (cs : List Char) :
    splitSlash ('/' :: cs) = [] :: splitSlash cs := by
  simp [splitSlash]

/-- Splitting after a non-slash extends the first part. -/
theorem splitSlash_cons_of_ne {c : Char} (hc : c ≠ '/') (cs : List Char)
    {p : List Char} {ps : List (List Char)} (h : splitSlash cs = p :: ps) :
    splitSlash (c :: cs) = (c :: p) :: ps := by
  simp [splitSlash, hc, h]

/-- No part produced by `split('/')` contains a slash. -/
theorem mem_splitSlash_no_slash (cs : List Char) :
    ∀ part ∈ splitSlash cs, '/' ∉ part := by
  induction cs with
  | nil =>
    intro part hp
    simp only [splitSlash, List.mem_singleton] at hp
    simp [hp]
  | cons c cs ih =>
    intro part hp
    by_cases hc : c = '/'
    · subst hc
      rw [splitSlash_cons_slash] at hp
      rcases List.mem_cons.mp hp with h | h
      · simp [h]
      · exact ih part h
    · cases h : splitSlash cs with
      | nil => exact absurd h (splitSlash_ne_nil cs)
      | cons p ps =>
        rw [splitSlash_cons_of_ne hc cs h] at hp
        rcases List.mem_cons.mp hp with h2 | h2
        · subst h2
          intro hmem
          rcases List.mem_cons.mp hmem with h3 | h3
          · exact hc h3.symm
          · exact ih p (h ▸ List.mem_cons_self p ps) h3
        · exact ih part (h ▸ List.mem_cons_of_mem p h2)

/-- A slash-free string is a single part. -/
theorem splitSlash_no_slash {cs : List Char} (h : '/' ∉ cs) : splitSlash cs = [cs] := by
  induction cs with
  | nil => simp [splitSlash]
  | cons c cs ih =>
    have hc : c ≠ '/' := fun hh => h (hh ▸ List.mem_cons_self c cs)
    have hcs : '/' ∉ cs := fun hh => h (List.mem_cons_of_mem c hh)
    exact splitSlash_cons_of_ne hc cs (ih hcs)

/-- Prepending a slash-free run extends the first part of the split. -/
theorem splitSlash_append_left (xs : List Char) (hx : '/' ∉ xs) (ys : List Char)
    {p : List Char} {ps : List (List Char)} (h : splitSlash ys = p :: ps) :
    splitSlash (xs ++ ys) = (xs ++ p) :: ps := by
  induction xs with
  | nil => simpa using h
  | cons c xs ih =>
    have hc : c ≠ '/' := fun hh => hx (hh ▸ List.mem_cons_self c xs)
    have hxs : '/' ∉ xs := fun hh => hx (List.mem_cons_of_mem c hh)
    rw [List.cons_append]
    rw [splitSlash_cons_of_ne hc (xs ++ ys) (ih hxs)]
    simp

/-- Splitting after `k` leading slashes yields `k` empty parts. -/
theorem splitSlash_replicate_append (k : Nat) (t : List Char) :
    splitSlash (List.replicate k '/' ++ t) = List.replicate k [] ++ splitSlash t := by
  induction k with
  | zero => simp
  | succ k ih =>
    rw [List.replicate_succ, List.cons_append, splitSlash_cons_slash, ih,
      List.replicate_succ, List.cons_append]

/-- Splitting re-inverts `'/'.join` on non-empty slash-free parts. -/
theorem splitSlash_joinSlash (comps : List (List Char)) (hne : comps ≠ [])
    (hc : ∀ c ∈ comps, '/' ∉ c) : splitSlash (joinSlash comps) = comps := by
  induction comps with
  | nil => exact absurd rfl hne
  | cons c cs ih =>
    cases cs with
    | nil =>
      show splitSlash (joinSlash [c]) = [c]
      rw [show joinSlash [c] = c from rfl]
      exact splitSlash_no_slash (hc c (List.mem_cons_self c []))
    | cons c2 cs2 =>
      rw [show joinSlash (c :: c2 :: cs2) = c ++ '/' :: joinSlash (c2 :: cs2) from rfl]
      have hrest : splitSlash ('/' :: joinSlash (c2 :: cs2)) = [] :: (c2 :: cs2) := by
        rw [splitSlash_cons_slash,
          ih (by simp) (fun q hq => hc q (List.mem_cons_of_mem c hq))]
      rw [splitSlash_append_left c (hc c (List.mem_cons_self c _)) _ hrest]
      simp

/-- `npStep` skips an empty component. -/
theorem npStep_nil (k : Nat) (acc : List (List Char)) : npStep k acc [] = acc := by
  simp [npStep]

/-- `npStep` appends a good component unconditionally. -/
theorem npStep_good (k : Nat) (acc : List (List Char)) {p : List Char} (hg : GoodComp p) :
    npStep k acc p = acc ++ [p] := by
  obtain ⟨hg1, hg2, hg3, _⟩ := hg
  rw [npStep, if_neg (by simp [hg1, hg2]), if_pos (Or.inl hg3)]

/-- The component fold ignores the empty parts coming from leading slashes. -/
theorem foldl_npStep_replicate (k m : Nat) (acc : List (List Char))
    (rest : List (List Char)) :
    (List.replicate m [] ++ rest).foldl (npStep k) acc = rest.foldl (npStep k) acc := by
  induction m generalizing acc with
  | zero => simp
  | succ m ih => rw [List.replicate_succ, List.cons_append, List.foldl_cons, npStep_nil, ih]

/-- The component fold passes a list of good components through unchanged. -/
theorem foldl_npStep_good (k : Nat) (parts : List (List Char))
    (hall : ∀ p ∈ parts, GoodComp p) :
    ∀ acc, parts.foldl (npStep k) acc = acc ++ parts := by
  induction parts with
  | nil => intro acc; simp
  | cons p parts ih =>
    intro acc
    rw [List.foldl_cons, npStep_good k acc (hall p (List.mem_cons_self p parts)),
      ih (fun q hq => hall q (List.mem_cons_of_mem p hq))]
    simp

/-- With at least one leading slash, every component the fold accumulates is
good: `..` never survives and nothing empty or dotted is ever appended. -/
theorem foldl_npStep_all_good (k : Nat) (hk : k ≠ 0) (parts : List (List Char)) :
    ∀ acc, (∀ p ∈ parts, '/' ∉ p) → (∀ x ∈ acc, GoodComp x) →
      ∀ x ∈ parts.foldl (npStep k) acc, GoodComp x := by
  induction parts with
  | nil => intro acc _ hacc x hx; exact hacc x hx
  | cons p parts ih =>
    intro acc hparts hacc
    rw [List.foldl_cons]
    refine ih (npStep k acc p) (fun q hq => hparts q (List.mem_cons_of_mem p hq)) ?_
    intro x hx
    rw [npStep] at hx
    by_cases h1 : p = [] ∨ p = ['.']
    · rw [if_pos h1] at hx
      exact hacc x hx
    · rw [if_neg h1] at hx
      by_cases h2 : p ≠ ['.', '.'] ∨ (k = 0 ∧ acc = []) ∨ acc.getLast? = some ['.', '.']
      · rw [if_pos h2] at hx
        rcases List.mem_append.mp hx with h | h
        · exact hacc x h
        · have hp2 : p ≠ ['.', '.'] := by
            rcases h2 with h2 | h2 | h2
            · exact h2
            · exact absurd h2.1 hk
            · exfalso
              have hmem : ['.', '.'] ∈ acc := by
                have := List.dropLast_append_getLast? ['.', '.'] h2
                rw [← this]
                exact List.mem_append_right _ (List.mem_singleton.mpr rfl)
              exact (hacc _ hmem).2.2.1 rfl
          have hx' : x = p := List.mem_singleton.mp h
          subst hx'
          exact ⟨fun hh => h1 (Or.inl hh), fun hh => h1 (Or.inr hh), hp2,
            hparts x (List.mem_cons_self _ _)⟩
      · rw [if_neg h2] at hx
        exact hacc x ((List.dropLast_sublist acc).subset hx)

/-- The joined list of good components never starts with a slash. -/
theorem head?_joinSlash (comps : List (List Char)) (hc : ∀ c ∈ comps, GoodComp c) :
    (joinSlash comps).head? ≠ some '/' := by
  cases comps with
  | nil => simp [joinSlash]
  | cons c cs =>
    have hgood := hc c (List.mem_cons_self c cs)
    obtain ⟨h1, _, _, h4⟩ := hgood
    cases c with
    | nil => exact absurd rfl h1
    | cons a t =>
      have ha : a ≠ '/' := fun hh => h4 (hh ▸ List.mem_cons_self a t)
      cases cs with
      | nil =>
        rw [show joinSlash [a :: t] = a :: t from rfl]
        simp [ha]
      | cons c2 cs2 =>
        rw [show joinSlash ((a :: t) :: c2 :: cs2) =
          (a :: t) ++ '/' :: joinSlash (c2 :: cs2) from rfl]
        simp [ha]

/-- `initSlashes` of an absolute path is 1 or 2. -/
theorem initSlashes_of_head {cs : List Char} (h : cs.head? = some '/') :
    initSlashes cs = 1 ∨ initSlashes cs = 2 := by
  rw [initSlashes, if_pos h]
  split
  · exact Or.inr rfl
  · exact Or.inl rfl

/-- `initSlashes` of a rendered normal form recovers its slash count. -/
theorem initSlashes_normal (k : Nat) (hk : k = 1 ∨ k = 2) (comps : List (List Char))
    (hc : ∀ c ∈ comps, GoodComp c) :
    initSlashes (List.replicate k '/' ++ joinSlash comps) = k := by
  have hj := head?_joinSlash comps hc
  rcases hk with hk | hk <;> subst hk
  · rw [show List.replicate 1 '/' ++ joinSlash comps = '/' :: joinSlash comps from by simp,
      initSlashes]
    rw [if_pos (show ('/' :: joinSlash comps).head? = some '/' by simp)]
    rw [if_neg (show ¬ ((List.drop 1 ('/' :: joinSlash comps)).head? = some '/' ∧
        ¬ (List.drop 2 ('/' :: joinSlash comps)).head? = some '/') by
      intro hand
      exact hj (by simpa using hand.1))]
  · rw [show List.replicate 2 '/' ++ joinSlash comps =
      '/' :: '/' :: joinSlash comps from by simp [List.replicate_succ],
      initSlashes]
    rw [if_pos (show ('/' :: '/' :: joinSlash comps).head? = some '/' by simp)]
    rw [if_pos (show (List.drop 1 ('/' :: '/' :: joinSlash comps)).head? = some '/' ∧
        ¬ (List.drop 2 ('/' :: '/' :: joinSlash comps)).head? = some '/' by
      exact ⟨by simp, by simpa using hj⟩)]

/-- `normpath` fixes every rendered normal form: `k` leading slashes
(`k = 1` or `2`) followed by joined good components. -/
theorem npChars_normal (k : Nat) (hk : k = 1 ∨ k = 2) (comps : List (List Char))
    (hc : ∀ c ∈ comps, GoodComp c) :
    npChars (List.replicate k '/' ++ joinSlash comps) =
      List.replicate k '/' ++ joinSlash comps := by
  have hne : List.replicate k '/' ++ joinSlash comps ≠ [] := by
    rcases hk with hk | hk <;> subst hk <;> simp [List.replicate_succ]
  have hslash := initSlashes_normal k hk comps hc
  have hsplit : splitSlash (List.replicate k '/' ++ joinSlash comps) =
      List.replicate k [] ++ splitSlash (joinSlash comps) :=
    splitSlash_replicate_append k _
  rw [npChars, if_neg hne]
  simp only [hslash, hsplit]
  rw [foldl_npStep_replicate]
  cases comps with
  | nil =>
    rw [show splitSlash (joinSlash []) = [[]] from rfl, List.foldl_cons, List.foldl_nil,
      npStep_nil]
    rw [show joinSlash ([] : List (List Char)) = joinSlash [] from rfl]
    rw [if_neg hne]
  | cons c cs2 =>
    have hsf : ∀ q ∈ (c :: cs2), '/' ∉ q := fun q hq => (hc q hq).2.2.2
    rw [splitSlash_joinSlash (c :: cs2) (by simp) hsf,
      foldl_npStep_good k (c :: cs2) hc [], List.nil_append, if_neg hne]

/-- `normpath` of an absolute path yields a rendered normal form. -/
theorem npChars_absolute (cs : List Char) (h : cs.head? = some '/') :
    ∃ k comps, (k = 1 ∨ k = 2) ∧ (∀ c ∈ comps, GoodComp c) ∧
      npChars cs = List.replicate k '/' ++ joinSlash comps := by
  have hne : cs ≠ [] := by
    cases cs with
    | nil => simp at h
    | cons a t => simp
  have hk := initSlashes_of_head h
  have hkpos : initSlashes cs ≠ 0 := by rcases hk with hk | hk <;> simp [hk]
  refine ⟨initSlashes cs, (splitSlash cs).foldl (npStep (initSlashes cs)) [], hk, ?_, ?_⟩
  · exact foldl_npStep_all_good (initSlashes cs) hkpos (splitSlash cs) []
      (mem_splitSlash_no_slash cs) (by simp)
  · rw [npChars, if_neg hne]
    have hres : List.replicate (initSlashes cs) '/' ++
        joinSlash ((splitSlash cs).foldl (npStep (initSlashes cs)) []) ≠ [] := by
      rcases hk with hk | hk <;> rw [hk] <;> simp [List.replicate_succ]
    simp only [if_neg hres]

/-- `normpath` keeps absolute paths absolute. -/
theorem head?_npChars_absolute (cs : List Char) (h : cs.head? = some '/') :
    (npChars cs).head? = some '/' := by
  obtain ⟨k, comps, hk, _, heq⟩ := npChars_absolute cs h
  rw [heq]
  rcases hk with hk | hk <;> subst hk <;> simp [List.replicate_succ]

/-- `normpath` is idempotent on absolute paths. -/
theorem npChars_idem_absolute (cs : List Char) (h : cs.head? = some '/') :
    npChars (npChars cs) = npChars cs := by
  obtain ⟨k, comps, hk, hc, heq⟩ := npChars_absolute cs h
  rw [heq]
  exact npChars_normal k hk comps hc

/-- `join` from an absolute working directory yields an absolute path. -/
theorem head?_joinPathChars (cwd p : List Char) (hc : cwd.head? = some '/') :
    (joinPathChars cwd p).head? = some '/' := by
  rw [joinPathChars]
  by_cases hp : p.head? = some '/'
  · rw [if_pos hp]; exact hp
  · rw [if_neg hp]
    have hcwdne : cwd ≠ [] := by
      cases cwd with
      | nil => simp at hc
      | cons a t => simp
    split
    · cases cwd with
      | nil => exact absurd rfl hcwdne
      | cons a t => simpa using hc
    · cases cwd with
      | nil => exact absurd rfl hcwdne
      | cons a t => simpa using hc

/-- `abspath` is idempotent (for an absolute working directory). -/
theorem abspathChars_idem (cwd p : List Char) (hc : cwd.head? = some '/') :
    abspathChars cwd (abspathChars cwd p) = abspathChars cwd p := by
  have h1 : (abspathChars cwd p).head? = some '/' :=
    head?_npChars_absolute _ (head?_joinPathChars cwd p hc)
  show npChars (joinPathChars cwd (abspathChars cwd p)) = abspathChars cwd p
  rw [show joinPathChars cwd (abspathChars cwd p) = abspathChars cwd p from by
    rw [joinPathChars, if_pos h1]]
  exact npChars_idem_absolute _ (head?_joinPathChars cwd p hc)

/-- `join` preserves a suffix of its second argument. -/
theorem suffix_joinPathChars (cwd x e : List Char) (hex : e <:+ x) :
    e <:+ joinPathChars cwd x := by
  rw [joinPathChars]
  by_cases hx : x.head? = some '/'
  · rw [if_pos hx]; exact hex
  · rw [if_neg hx]
    split
    · exact hex.trans (List.suffix_append cwd x)
    · exact (hex.trans (List.suffix_cons '/' x)).trans (List.suffix_append cwd _)

/-- A slash-free non-empty suffix survives into the last part of the split. -/
theorem suffix_last_splitSlash (e : List Char) (hs : '/' ∉ e) (h0 : e ≠ []) :
    ∀ x, e <:+ x → ∃ l, (splitSlash x).getLast? = some l ∧ e <:+ l := by
  intro x
  induction x with
  | nil =>
    intro hex
    exact absurd (List.suffix_nil.mp hex) h0
  | cons c cs ih =>
    intro hex
    rcases List.suffix_cons_iff.mp hex with h | h
    · have hnos : '/' ∉ c :: cs := h ▸ hs
      rw [splitSlash_no_slash hnos]
      exact ⟨c :: cs, rfl, h ▸ List.suffix_refl _⟩
    · obtain ⟨l, hl, hsuf⟩ := ih h
      by_cases hc : c = '/'
      · subst hc
        rw [splitSlash_cons_slash]
        cases hsp : splitSlash cs with
        | nil => exact absurd hsp (splitSlash_ne_nil cs)
        | cons p ps =>
          rw [hsp] at hl
          exact ⟨l, by rw [List.getLast?_cons_cons]; exact hl, hsuf⟩
      · cases hsp : splitSlash cs with
        | nil => exact absurd hsp (splitSlash_ne_nil cs)
        | cons p ps =>
          rw [splitSlash_cons_of_ne hc cs hsp]
          rw [hsp] at hl
          cases ps with
          | nil =>
            have hlp : l = p := by simpa using hl.symm
            subst hlp
            exact ⟨c :: l, by simp, hsuf.trans (List.suffix_cons c l)⟩
          | cons p2 ps2 =>
            refine ⟨l, ?_, hsuf⟩
            rw [List.getLast?_cons_cons]
            rw [List.getLast?_cons_cons] at hl
            exact hl

/-- When the last part is good, the component fold ends with it. -/
theorem foldl_npStep_last (k : Nat) (parts : List (List Char)) (acc : List (List Char))
    {l : List Char} (hlast : parts.getLast? = some l) (hg : GoodComp l) :
    ∃ acc2, parts.foldl (npStep k) acc = acc2 ++ [l] := by
  have hparts : parts.dropLast ++ [l] = parts :=
    List.dropLast_append_getLast? l hlast
  rw [← hparts, List.foldl_append, List.foldl_cons, List.foldl_nil,
    npStep_good k _ hg]
  exact ⟨_, rfl⟩

/-- The last component is a suffix of the join. -/
theorem suffix_joinSlash_last (as : List (List Char)) (l : List Char) :
    l <:+ joinSlash (as ++ [l]) := by
  induction as with
  | nil => exact List.suffix_refl l
  | cons a as ih =>
    cases has : as ++ [l] with
    | nil => simp at has
    | cons b bs =>
      rw [List.cons_append, has,
        show joinSlash (a :: b :: bs) = a ++ '/' :: joinSlash (b :: bs) from rfl]
      rw [has] at ih
      exact (ih.trans (List.suffix_cons '/' _)).trans (List.suffix_append a _)

/-- `abspath` preserves a (slash-free, non-trivial) extension suffix. -/
theorem suffix_abspathChars (cwd x e : List Char) (hc : cwd.head? = some '/')
    (hs : '/' ∉ e) (h0 : e ≠ []) (h1 : e ≠ ['.']) (h2 : e ≠ ['.', '.'])
    (hex : e <:+ x) : e <:+ abspathChars cwd x := by
  have hj : e <:+ joinPathChars cwd x := suffix_joinPathChars cwd x e hex
  have hhead := head?_joinPathChars cwd x hc
  have hne : joinPathChars cwd x ≠ [] := by
    cases hjp : joinPathChars cwd x with
    | nil => rw [hjp] at hhead; simp at hhead
    | cons a t => simp
  obtain ⟨l, hllast, hlsuf⟩ := suffix_last_splitSlash e hs h0 (joinPathChars cwd x) hj
  have hlmem : l ∈ splitSlash (joinPathChars cwd x) := by
    have := List.dropLast_append_getLast? l hllast
    rw [← this]
    exact List.mem_append_right _ (List.mem_singleton.mpr rfl)
  have hlgood : GoodComp l := by
    refine ⟨?_, ?_, ?_, mem_splitSlash_no_slash _ l hlmem⟩
    · intro hh
      rw [hh] at hlsuf
      exact h0 (List.suffix_nil.mp hlsuf)
    · intro hh
      rw [hh] at hlsuf
      rcases List.suffix_cons_iff.mp hlsuf with h | h
      · exact h1 h
      · exact h0 (List.suffix_nil.mp h)
    · intro hh
      rw [hh] at hlsuf
      rcases List.suffix_cons_iff.mp hlsuf with h | h
      · exact h2 h
      · rcases List.suffix_cons_iff.mp h with h | h
        · exact h1 h
        · exact h0 (List.suffix_nil.mp h)
  show e <:+ npChars (joinPathChars cwd x)
  obtain ⟨acc2, hfold⟩ := foldl_npStep_last (initSlashes (joinPathChars cwd x))
    (splitSlash (joinPathChars cwd x)) [] hllast hlgood
  have hsufj : l <:+ joinSlash (acc2 ++ [l]) := suffix_joinSlash_last acc2 l
  rw [npChars, if_neg hne]
  simp only [hfold]
  have hres : List.replicate (initSlashes (joinPathChars cwd x)) '/' ++
      joinSlash (acc2 ++ [l]) ≠ [] := by
    intro hcontra
    rcases List.append_eq_nil.mp hcontra with ⟨_, hjz⟩
    rw [hjz] at hsufj
    exact hlgood.1 (List.suffix_nil.mp hsufj)
  rw [if_neg hres]
  exact ((hlsuf.trans hsufj).trans (List.suffix_append _ _))

end NormpathLemmas

/-- C8: `File.file_name` is idempotent for every path and either value of the
extension-check flag, given an absolute working directory and one of the
fixed extensions actually used (any non-empty, slash-free extension other
than `.` and `..`): normalizing the normalized path changes nothing. -/
theorem C8_file_name_idempotent (cwd p ext : String) (c : Bool)
    (hcwd : cwd.data.head? = some '/') (hs : '/' ∉ ext.data)
    (h0 : ext ≠ "") (h1 : ext ≠ ".") (h2 : ext ≠ "..") :
    fileName cwd (fileName cwd p c ext) c ext = fileName cwd p c ext := by
  have e0 : ext.data ≠ [] := fun hd => h0 (String.ext (by rw [hd]))
  have e1 : ext.data ≠ ['.'] := fun hd => h1 (String.ext (by rw [hd]))
  have e2 : ext.data ≠ ['.', '.'] := fun hd => h2 (String.ext (by rw [hd]))
  have key : ∀ x : List Char, ext.data <:+ x →
      fileNameC cwd.data (abspathChars cwd.data x) true ext.data =
        abspathChars cwd.data x := by
    intro x hx
    have hq : ext.data <:+ abspathChars cwd.data x :=
      suffix_abspathChars cwd.data x ext.data hcwd hs e0 e1 e2 hx
    rw [fileNameC, decide_eq_true hq]
    simp only [Bool.not_true, Bool.and_false, Bool.false_eq_true, if_false]
    exact abspathChars_idem cwd.data x hcwd
  cases c with
  | false =>
    refine congrArg String.mk
      (?_ : fileNameC cwd.data (fileNameC cwd.data p.data false ext.data) false ext.data =
        fileNameC cwd.data p.data false ext.data)
    have hstep : ∀ y : List Char,
        fileNameC cwd.data y false ext.data = abspathChars cwd.data y := by
      intro y
      rw [fileNameC]
      simp
    simp only [hstep]
    exact abspathChars_idem cwd.data p.data hcwd
  | true =>
    refine congrArg String.mk
      (?_ : fileNameC cwd.data (fileNameC cwd.data p.data true ext.data) true ext.data =
        fileNameC cwd.data p.data true ext.data)
    by_cases hp : ext.data <:+ p.data
    · have hstep : fileNameC cwd.data p.data true ext.data = abspathChars cwd.data p.data := by
        rw [fileNameC, decide_eq_true hp]
        simp
      rw [hstep]
      exact key p.data hp
    · have hstep : fileNameC cwd.data p.data true ext.data =
          abspathChars cwd.data (p.data ++ ext.data) := by
        rw [fileNameC, decide_eq_false hp]
        simp
      rw [hstep]
      exact key (p.data ++ ext.data) (List.suffix_append p.data ext.data)

/-- C8 witness at a concrete path, extension and working directory. -/
theorem C8_file_name_idempotent_witness :
    ("/home".data.head? = some '/') ∧ ('/' ∉ ".simc".data) ∧
    (".simc" ≠ "") ∧ (".simc" ≠ ".") ∧ (".simc" ≠ "..") ∧
    fileName "/home" (fileName "/home" "x" true ".simc") true ".simc" =
      fileName "/home" "x" true ".simc" :=
  ⟨by decide, by decide, by decide, by decide, by decide,
   C8_file_name_idempotent "/home" "x" ".simc" true (by decide) (by decide)
     (by decide) (by decide) (by decide)⟩

/-- C3 counterexample: `File.file_name` passes the (possibly suffixed) path
through `os.path.abspath`, so with working directory `/tmp` a stored path
that already ends in the extension is not returned unchanged, and the
end-to-end composite does not flatten to the bare `myprofile.simc`. -/
theorem C3_counterexample :
    fileName "/tmp" "myprofile.simc" true ".simc" ≠ "myprofile.simc" ∧
    SimcArg.appendTo "/tmp" (.arguments (argumentsOf
        [.str "iterations=1000", .node (.profile "myprofile" true)] [])) [] ≠
      ["iterations=1000", "myprofile.simc"] ∧
    fileName "/tmp" "myprofile.simc" true ".simc" = "/tmp/myprofile.simc" ∧
    SimcArg.appendTo "/tmp" (.arguments (argumentsOf
        [.str "iterations=1000", .node (.profile "myprofile" true)] [])) [] =
      ["iterations=1000", "/tmp/myprofile.simc"] := by
  refine ⟨by decide, by decide, by decide, by decide⟩

/-- C3 amended: the derived path of a file-backed node is
`abspath(p)` when the extension-check flag is off or `p` already ends with
the extension (case-sensitive exact suffix match), and `abspath(p + e)` when
the flag is set and the suffix is missing; consequently the end-to-end
composite flattens to `["iterations=1000", abspath("myprofile.simc")]`. -/
theorem C3_amended_normalized_path (cwd p ext : String) (c : Bool) :
    (fileName cwd p false ext = abspath cwd p) ∧
    (ext.data <:+ p.data → fileName cwd p c ext = abspath cwd p) ∧
    (¬ ext.data <:+ p.data → fileName cwd p true ext = abspath cwd (p ++ ext)) ∧
    (SimcArg.appendTo cwd (.arguments (argumentsOf
        [.str "iterations=1000", .node (.profile "myprofile" true)] [])) [] =
      ["iterations=1000", abspath cwd "myprofile.simc"]) := by
  refine ⟨rfl, ?_, ?_, ?_⟩
  · intro h
    cases c with
    | false => rfl
    | true =>
      have hd : decide (ext.data <:+ p.data) = true := decide_eq_true h
      simp [fileName, fileNameC, hd, abspath]
  · intro h
    have hd : decide (ext.data <:+ p.data) = false := decide_eq_false h
    simp [fileName, fileNameC, hd, abspath, String.data_append]
  · rfl

/-- C3 amended, witness at concrete paths with and without the suffix. -/
theorem C3_amended_normalized_path_witness :
    (".simc".data <:+ "a.simc".data) ∧
    fileName "/tmp" "a.simc" true ".simc" = abspath "/tmp" "a.simc" ∧
    (¬ ".simc".data <:+ "b".data) ∧
    fileName "/tmp" "b" true ".simc" = abspath "/tmp" ("b" ++ ".simc") :=
  ⟨by decide,
   (C3_amended_normalized_path "/tmp" "a.simc" ".simc" true).2.1 (by decide),
   by decide,
   (C3_amended_normalized_path "/tmp" "b" ".simc" true).2.2.1 (by decide)⟩

end Simcrunner
